import Mathlib

/-!
# GitPacker: a verification development of `main.go`

The program is a sequential orchestration over three external capabilities: a
git client, the file system and a zip writer.  The embedding keeps the control
flow of each Go function and replaces every external call by a recorded
`Call` whose success or failure is decided by a `World`.  The world answers a
call from the whole history of calls made so far, so every pattern of
successes and failures of the external operations is covered.

Go strings are embedded as Lean strings, a Go `error` value as
`Option String` (`none` is `nil`).  Text printed to standard output is not
part of the state; the place where `main` stops is kept as a `MainExit`.
-/

namespace GitPacker

/-! ## Constants and data model (main.go 17-50) -/

/-- Name of the configuration file, `DefaultGitPackerConfigFilename`. -/
def DefaultGitPackerConfigFilename : String := "pack.json"

/-- Suffix of the archive file, `ZipFileSuffix`. -/
def ZipFileSuffix : String := ".zip"

/-- Parameters for cloning one repository, `CloneConfig`. -/
structure CloneConfig where
  CloneDirectory : String
  GitURL : String
  Commit : String
  Shallow : Bool
  deriving DecidableEq, Repr

/-- Parameters of one execution of the program, `PackConfig`. -/
structure PackConfig where
  RootCloneDirectory : String
  Repos : List CloneConfig
  Archive : Bool
  ArchiveFilename : String
  deriving DecidableEq, Repr

/-! ## The external world -/

/-- One call of an external operation, with the arguments the Go code passes. -/
inductive Call where
  /-- Records `git.PlainClone(path, false, &git.CloneOptions{URL: url})`. -/
  | plainClone (path url : String)
  /-- Records `r.Head()` on the repository cloned at `path`. -/
  | head (path : String)
  /-- Records `r.Worktree()` on the repository cloned at `path`. -/
  | worktree (path : String)
  /-- Records `w.Checkout(&git.CheckoutOptions{Hash: plumbing.NewHash(commit)})`. -/
  | checkout (path commit : String)
  /-- Records `os.RemoveAll(path)`. -/
  | removeAll (path : String)
  /-- Records `os.Create(name)`. -/
  | osCreate (name : String)
  /-- Records `os.Lstat(path)`, made by `filepath.Walk`. -/
  | lstat (path : String)
  /-- Records the directory listing of `path`, made by `filepath.Walk`. -/
  | readDir (path : String)
  /-- Records `os.Open(path)`. -/
  | osOpen (path : String)
  /-- Records `w.Create(path)` on the zip writer. -/
  | zipCreate (path : String)
  /-- Records `io.Copy(f, file)` for the file opened at `path`. -/
  | ioCopy (path : String)
  deriving DecidableEq, Repr

/-- True exactly for `Call.plainClone`. -/
def Call.isPlainClone : Call → Bool
  | .plainClone _ _ => true
  | _ => false

/-- True for the calls of the git client and for the metadata removal,
    the external calls made by `Clone`. -/
def Call.isCloneCall : Call → Bool
  | .plainClone _ _ => true
  | .head _ => true
  | .worktree _ => true
  | .checkout _ _ => true
  | .removeAll _ => true
  | _ => false

/-- True for the calls made by `zipDirectory`. -/
def Call.isZipCall : Call → Bool
  | .osCreate _ => true
  | .lstat _ => true
  | .readDir _ => true
  | .osOpen _ => true
  | .zipCreate _ => true
  | .ioCopy _ => true
  | _ => false

/-- True for the calls made by the walk of `zipDirectory`, that is all its
    calls but the creation of the output file. -/
def Call.isWalkCall : Call → Bool
  | .lstat _ => true
  | .readDir _ => true
  | .osOpen _ => true
  | .zipCreate _ => true
  | .ioCopy _ => true
  | _ => false

/-- The environment of a run.  `respond history call` is the error returned by
    `call` when it is made after the calls of `history` (`none` for success);
    `join` is `filepath.Join` on a directory path and an entry name; `copied`
    is the number of bytes that reached the archive when an `io.Copy` fails. -/
structure World where
  respond : List Call → Call → Option String
  join : String → String → String
  copied : List Call → String → Nat

/-- A file system tree as `filepath.Walk` sees it during one walk: files
    (`IsDir` false) with the bytes read from them and directories (`IsDir`
    true) with their entries in listing order. -/
inductive FsNode where
  | file (name : String) (content : List UInt8)
  | dir (name : String) (children : List FsNode)
  deriving Repr

/-- Entry name of a node. -/
def FsNode.name : FsNode → String
  | .file n _ => n
  | .dir n _ => n

/-- Result of running a Go function body: it returns `nil`, returns an error,
    or panics. -/
inductive Outcome where
  | nil
  | err (e : String)
  | panic (e : String)
  deriving DecidableEq, Repr

/-- The calls made so far and the entries written to the zip archive, each a
    name with its bytes. -/
structure ZipState where
  trace : List Call
  entries : List (String × List UInt8)
  deriving Repr

/-! ## Go library functions on strings -/

/-- Go `strings.HasPrefix`: `len(s) >= len(prefix) && s[:len(prefix)] == prefix`. -/
def HasPrefix (s pre : String) : Bool :=
  decide (s.data.length ≥ pre.data.length) && s.data.take pre.data.length == pre.data

/-- Go `strings.HasSuffix`:
    `len(s) >= len(suffix) && s[len(s)-len(suffix):] == suffix`. -/
def HasSuffix (s suffix : String) : Bool :=
  decide (s.data.length ≥ suffix.data.length) &&
    s.data.drop (s.data.length - suffix.data.length) == suffix.data

/-! ## `CloneConfig.Clone` (main.go 52-106) -/

/-- Destination path of a clone, main.go 54-57. -/
def CloneConfig.cloneDirectoryPath (c : CloneConfig) (rootDirectory : String) : String :=
  if rootDirectory != "" then rootDirectory ++ "/" ++ c.CloneDirectory else c.CloneDirectory

/-- The method `Clone`: the returned error and the extended call history. -/
def CloneConfig.Clone (c : CloneConfig) (w : World) (rootDirectory : String)
    (tr : List Call) : Option String × List Call :=
  let cloneDirectoryPath := c.cloneDirectoryPath rootDirectory
  let clone := Call.plainClone cloneDirectoryPath c.GitURL
  match w.respond tr clone with
  | some err => (some err, tr ++ [clone])
  | none =>
    let tr := tr ++ [clone]
    if c.Commit == "" then
      if c.Shallow then
        let rm := Call.removeAll (cloneDirectoryPath ++ "/.git/")
        match w.respond tr rm with
        | some err => (some err, tr ++ [rm])
        | none => (none, tr ++ [rm])
      else (none, tr)
    else
      match w.respond tr (Call.head cloneDirectoryPath) with
      | some err => (some err, tr ++ [Call.head cloneDirectoryPath])
      | none =>
        let tr := tr ++ [Call.head cloneDirectoryPath]
        match w.respond tr (Call.worktree cloneDirectoryPath) with
        | some err => (some err, tr ++ [Call.worktree cloneDirectoryPath])
        | none =>
          let tr := tr ++ [Call.worktree cloneDirectoryPath]
          let co := Call.checkout cloneDirectoryPath c.Commit
          match w.respond tr co with
          | some err => (some err, tr ++ [co])
          | none =>
            let tr := tr ++ [co]
            if c.Shallow then
              let rm := Call.removeAll (cloneDirectoryPath ++ "/.git/")
              match w.respond tr rm with
              | some err => (some err, tr ++ [rm])
              | none => (none, tr ++ [rm])
            else (none, tr)

/-! ## `zipDirectory` (main.go 174-211) -/

/-- The closure `walker` of `zipDirectory`, main.go 184-209.  `info` is the
    node found at `path` (`none` for a nil `os.FileInfo`, whose `IsDir` call
    would panic); the bytes copied by `io.Copy` are those of the node. -/
def walker (w : World) (path : String) (info : Option FsNode) (err : Option String)
    (st : ZipState) : Outcome × ZipState :=
  match err with
  | some e => (.err e, st)
  | none =>
    match info with
    | none => (.panic "invalid memory address or nil pointer dereference", st)
    | some (.dir _ _) => (.nil, st)
    | some (.file _ content) =>
      let tr1 := st.trace ++ [Call.osOpen path]
      match w.respond st.trace (Call.osOpen path) with
      | some e => (.err e, { st with trace := tr1 })
      | none =>
        let tr2 := tr1 ++ [Call.zipCreate path]
        match w.respond tr1 (Call.zipCreate path) with
        | some e => (.err e, { st with trace := tr2 })
        | none =>
          let tr3 := tr2 ++ [Call.ioCopy path]
          match w.respond tr2 (Call.ioCopy path) with
          | some e =>
            (.err e, { trace := tr3,
                       entries := st.entries ++ [(path, content.take (w.copied tr2 path))] })
          | none => (.nil, { trace := tr3, entries := st.entries ++ [(path, content)] })

mutual
/-- The recursive descent `walk` of Go `path/filepath`, applied to `walker`:
    a file is visited; a directory is listed, visited with the error of the
    listing, and entered when both the listing and the visit succeeded.  No
    error of the world is `filepath.SkipDir`, so every non-nil result of
    `walker` ends the walk. -/
def walk (w : World) (path : String) : FsNode → ZipState → Outcome × ZipState
  | .file n content, st => walker w path (some (.file n content)) none st
  | .dir n children, st =>
    let err := w.respond st.trace (Call.readDir path)
    let r := walker w path (some (.dir n children)) err
      { st with trace := st.trace ++ [Call.readDir path] }
    if err.isSome || r.1 != Outcome.nil then r
    else walkNames w path children r.2
/-- The loop of `walk` over the names of a directory. -/
def walkNames (w : World) (path : String) : List FsNode → ZipState → Outcome × ZipState
  | [], st => (.nil, st)
  | child :: rest, st =>
    let filename := w.join path child.name
    let st1 : ZipState := { st with trace := st.trace ++ [Call.lstat filename] }
    match w.respond st.trace (Call.lstat filename) with
    | some e =>
      let r := walker w filename none (some e) st1
      if r.1 != Outcome.nil then r else walkNames w path rest r.2
    | none =>
      let r := walk w filename child st1
      if r.1 != Outcome.nil then r else walkNames w path rest r.2
end

/-- Go `filepath.Walk(root, walker)` on the tree `fs` found at `root`: when
    `os.Lstat(root)` fails, `walker` is called once with that error. -/
def Walk (w : World) (root : String) (fs : FsNode) (st : ZipState) : Outcome × ZipState :=
  let st1 : ZipState := { st with trace := st.trace ++ [Call.lstat root] }
  match w.respond st.trace (Call.lstat root) with
  | some e => walker w root none (some e) st1
  | none => walk w root fs st1

/-- The function `zipDirectory`, main.go 174-211: its outcome, the extended
    call history and the archive entries written (`none` when the output file
    was not created).  A failure of `os.Create` is `panic(err)`, main.go
    175-178; the results of the deferred `Close` calls are dropped by the
    source and are not recorded. -/
def zipDirectory (w : World) (fs : FsNode) (directory zipFilename : String)
    (tr : List Call) : Outcome × List Call × Option (List (String × List UInt8)) :=
  match w.respond tr (Call.osCreate zipFilename) with
  | some err => (.panic err, tr ++ [Call.osCreate zipFilename], none)
  | none =>
    let r := Walk w directory fs { trace := tr ++ [Call.osCreate zipFilename], entries := [] }
    (r.1, r.2.trace, some r.2.entries)

/-! ## `main` (main.go 108-156) -/

/-- The loop of `main` over `packConfig.Repos`, main.go 121-129: the error
    list `errs` and the call history after the loop. -/
def cloneAll (w : World) (rootDirectory : String) :
    List CloneConfig → List String → List Call → List String × List Call
  | [], errs, tr => (errs, tr)
  | repo :: rest, errs, tr =>
    let r := repo.Clone w rootDirectory tr
    match r.1 with
    | some err => cloneAll w rootDirectory rest (errs ++ [err]) r.2
    | none => cloneAll w rootDirectory rest errs r.2

/-- The archive file name passed to `zipDirectory`, main.go 148-151. -/
def archiveFilename (name : String) : String :=
  if !(HasSuffix name ZipFileSuffix) then name ++ ZipFileSuffix else name

/-- The place where `main` stops, one constructor for each way out. -/
inductive MainExit where
  /-- Stops at main.go 113: the configuration could not be loaded. -/
  | loadError (e : String)
  /-- Stops at main.go 118: the root directory begins with "/". -/
  | absoluteRoot
  /-- Stops at main.go 136: the clone errors were printed. -/
  | cloneErrors (errs : List String)
  /-- Stops at main.go 141: archiving is not enabled. -/
  | noArchive
  /-- Stops at main.go 145: "Must specify archive_filename if archive is true." -/
  | missingArchiveFilename
  /-- Reached main.go 152: `zipDirectory` was called with `name` and ended with `r`. -/
  | zipped (name : String) (r : Outcome)
  deriving DecidableEq, Repr

/-- What a run of `main` leaves behind. -/
structure Run where
  exit : MainExit
  trace : List Call
  archive : Option (String × List (String × List UInt8))
  deriving Repr

/-- The function `main`.  `loaded` is the result of `loadJSON` on the
    configuration file and `fs` the tree found at the root clone directory
    when it is archived. -/
def main (w : World) (fs : FsNode) (loaded : Except String PackConfig) : Run :=
  match loaded with
  | .error e => { exit := .loadError e, trace := [], archive := none }
  | .ok packConfig =>
    if HasPrefix packConfig.RootCloneDirectory "/" then
      { exit := .absoluteRoot, trace := [], archive := none }
    else
      let r := cloneAll w packConfig.RootCloneDirectory packConfig.Repos [] []
      if r.1.length > 0 then
        { exit := .cloneErrors r.1, trace := r.2, archive := none }
      else if !packConfig.Archive then
        { exit := .noArchive, trace := r.2, archive := none }
      else if packConfig.ArchiveFilename == "" then
        { exit := .missingArchiveFilename, trace := r.2, archive := none }
      else
        let name := archiveFilename packConfig.ArchiveFilename
        let z := zipDirectory w fs packConfig.RootCloneDirectory name r.2
        { exit := .zipped name z.1, trace := z.2.1,
          archive := z.2.2.map (fun entries => (name, entries)) }

/-! ## Reference definitions used to state the properties -/

/-- The four steps of `Clone` with a pinned commit, up to the checkout. -/
def pinnedSteps (c : CloneConfig) (rootDirectory : String) : List Call :=
  [Call.plainClone (c.cloneDirectoryPath rootDirectory) c.GitURL,
   Call.head (c.cloneDirectoryPath rootDirectory),
   Call.worktree (c.cloneDirectoryPath rootDirectory),
   Call.checkout (c.cloneDirectoryPath rootDirectory) c.Commit]

/-- The result of one `Clone` per entry of the list, in the order of the
    list, each run after the calls of the ones before it. -/
def cloneResults (w : World) (rootDirectory : String) :
    List CloneConfig → List Call → List (Option String)
  | [], _ => []
  | c :: rest, tr =>
    (c.Clone w rootDirectory tr).1 :: cloneResults w rootDirectory rest (c.Clone w rootDirectory tr).2

/-- The call history after one `Clone` per entry of the list, in order. -/
def cloneTrace (w : World) (rootDirectory : String) :
    List CloneConfig → List Call → List Call
  | [], tr => tr
  | c :: rest, tr => cloneTrace w rootDirectory rest (c.Clone w rootDirectory tr).2

mutual
/-- The regular files of a tree found at `path`, each with its walk path and
    its bytes. -/
def regularFiles (join : String → String → String) (path : String) :
    FsNode → List (String × List UInt8)
  | .file _ content => [(path, content)]
  | .dir _ children => regularFilesIn join path children
/-- The regular files below the entries of the directory at `path`. -/
def regularFilesIn (join : String → String → String) (path : String) :
    List FsNode → List (String × List UInt8)
  | [] => []
  | child :: rest =>
    regularFiles join (join path child.name) child ++ regularFilesIn join path rest
end

/-- The history `t'` extends `t` by calls of the walk only. -/
def WalkExtends (t t' : List Call) : Prop :=
  ∃ ext, t' = t ++ ext ∧ ∀ x ∈ ext, x.isWalkCall = true

/-- The history `t'` extends `t` by calls of `zipDirectory` only. -/
def ZipExtends (t t' : List Call) : Prop :=
  ∃ ext, t' = t ++ ext ∧ ∀ x ∈ ext, x.isZipCall = true

/-- Replays the calls `ext` made after the history `t` against the outcome
    `r`: every call but the last succeeded, and `r` is the error of the last
    call if it failed and nil if it succeeded (or if no call was made). -/
def StopsAtFailure (w : World) : List Call → List Call → Outcome → Prop
  | _, [], r => r = .nil
  | t, c :: rest, r =>
    match w.respond t c with
    | none => StopsAtFailure w (t ++ [c]) rest r
    | some e => rest = [] ∧ r = .err e

/-! ## Worlds and inputs for the concrete checks -/

/-- Joins a directory path and an entry name with a slash. -/
def slashJoin (p n : String) : String := p ++ "/" ++ n

/-- A world in which every call succeeds. -/
def calmWorld : World :=
  { respond := fun _ _ => none, join := slashJoin, copied := fun _ _ => 0 }

/-- A world in which cloning from the URL "bad" fails and all else succeeds. -/
def badUrlWorld : World :=
  { respond := fun _ c =>
      match c with
      | .plainClone _ "bad" => some "repository not found"
      | _ => none,
    join := slashJoin, copied := fun _ _ => 0 }

/-- A world in which the output file cannot be created. -/
def readOnlyWorld : World :=
  { respond := fun _ c =>
      match c with
      | .osCreate _ => some "permission denied"
      | _ => none,
    join := slashJoin, copied := fun _ _ => 0 }

/-- A world in which removing a directory fails. -/
def stickyWorld : World :=
  { respond := fun _ c =>
      match c with
      | .removeAll _ => some "directory not empty"
      | _ => none,
    join := slashJoin, copied := fun _ _ => 0 }

/-- A world in which the checkout of a commit fails. -/
def lostCommitWorld : World :=
  { respond := fun _ c =>
      match c with
      | .checkout _ _ => some "object not found"
      | _ => none,
    join := slashJoin, copied := fun _ _ => 0 }

/-- A world in which copying "repos/a/x" into the archive fails after one byte. -/
def shortWriteWorld : World :=
  { respond := fun _ c =>
      match c with
      | .ioCopy "repos/a/x" => some "no space left on device"
      | _ => none,
    join := slashJoin, copied := fun _ _ => 1 }

/-- A small tree: `repos/a/x`, the empty directory `repos/a/.git`, `repos/y`. -/
def sampleTree : FsNode :=
  .dir "repos" [.dir "a" [.file "x" [1, 2], .dir ".git" []], .file "y" [3]]

/-- A configuration with three repositories and archiving to "out". -/
def sampleConfig : PackConfig :=
  { RootCloneDirectory := "repos",
    Repos := [⟨"a", "u1", "", false⟩, ⟨"b", "bad", "abc", true⟩, ⟨"c", "u3", "abc", true⟩],
    Archive := true, ArchiveFilename := "out" }

/-- A configuration with archiving enabled and no archive file name. -/
def namelessConfig : PackConfig :=
  { RootCloneDirectory := "repos",
    Repos := [⟨"a", "u1", "", false⟩, ⟨"b", "bad", "", false⟩],
    Archive := true, ArchiveFilename := "" }

/-! ## Properties of `Clone` -/

theorem Clone_trace (c : CloneConfig) (w : World) (rootDirectory : String) (tr : List Call) :
    ∃ rest, (c.Clone w rootDirectory tr).2
        = tr ++ Call.plainClone (c.cloneDirectoryPath rootDirectory) c.GitURL :: rest ∧
      ∀ x ∈ rest, x = Call.head (c.cloneDirectoryPath rootDirectory) ∨
        x = Call.worktree (c.cloneDirectoryPath rootDirectory) ∨
        x = Call.checkout (c.cloneDirectoryPath rootDirectory) c.Commit ∨
        x = Call.removeAll (c.cloneDirectoryPath rootDirectory ++ "/.git/") := by
  unfold CloneConfig.Clone
  simp only []
  repeat' split
  all_goals simp

/-- C4: with a pinned commit, `Clone` makes the clone, the head resolution,
    the worktree lookup and the checkout in this order, for both values of
    `shallow` and with no removal among them.  When the world fails one of
    these four calls, `Clone` stops there and returns that failure, with no
    removal, whatever `shallow` is.  When the world lets all four succeed,
    `Clone` without `shallow` returns nil with no further call, and `Clone`
    with `shallow` then removes "<destination>/.git/", after the checkout, and
    returns the result of the removal. -/
theorem Clone_pinned_commit (c : CloneConfig) (w : World) (rootDirectory : String)
    (tr : List Call) (hcommit : c.Commit ≠ "") :
    (∀ e, w.respond tr (Call.plainClone (c.cloneDirectoryPath rootDirectory) c.GitURL)
        = some e →
      c.Clone w rootDirectory tr = (some e, tr ++ (pinnedSteps c rootDirectory).take 1)) ∧
    (∀ e, w.respond tr (Call.plainClone (c.cloneDirectoryPath rootDirectory) c.GitURL)
        = none →
      w.respond (tr ++ (pinnedSteps c rootDirectory).take 1)
        (Call.head (c.cloneDirectoryPath rootDirectory)) = some e →
      c.Clone w rootDirectory tr = (some e, tr ++ (pinnedSteps c rootDirectory).take 2)) ∧
    (∀ e, w.respond tr (Call.plainClone (c.cloneDirectoryPath rootDirectory) c.GitURL)
        = none →
      w.respond (tr ++ (pinnedSteps c rootDirectory).take 1)
        (Call.head (c.cloneDirectoryPath rootDirectory)) = none →
      w.respond (tr ++ (pinnedSteps c rootDirectory).take 2)
        (Call.worktree (c.cloneDirectoryPath rootDirectory)) = some e →
      c.Clone w rootDirectory tr = (some e, tr ++ (pinnedSteps c rootDirectory).take 3)) ∧
    (∀ e, w.respond tr (Call.plainClone (c.cloneDirectoryPath rootDirectory) c.GitURL)
        = none →
      w.respond (tr ++ (pinnedSteps c rootDirectory).take 1)
        (Call.head (c.cloneDirectoryPath rootDirectory)) = none →
      w.respond (tr ++ (pinnedSteps c rootDirectory).take 2)
        (Call.worktree (c.cloneDirectoryPath rootDirectory)) = none →
      w.respond (tr ++ (pinnedSteps c rootDirectory).take 3)
        (Call.checkout (c.cloneDirectoryPath rootDirectory) c.Commit) = some e →
      c.Clone w rootDirectory tr = (some e, tr ++ pinnedSteps c rootDirectory)) ∧
    (w.respond tr (Call.plainClone (c.cloneDirectoryPath rootDirectory) c.GitURL)
        = none →
      w.respond (tr ++ (pinnedSteps c rootDirectory).take 1)
        (Call.head (c.cloneDirectoryPath rootDirectory)) = none →
      w.respond (tr ++ (pinnedSteps c rootDirectory).take 2)
        (Call.worktree (c.cloneDirectoryPath rootDirectory)) = none →
      w.respond (tr ++ (pinnedSteps c rootDirectory).take 3)
        (Call.checkout (c.cloneDirectoryPath rootDirectory) c.Commit) = none →
      c.Clone w rootDirectory tr =
        if c.Shallow then
          (w.respond (tr ++ pinnedSteps c rootDirectory)
              (Call.removeAll (c.cloneDirectoryPath rootDirectory ++ "/.git/")),
           tr ++ pinnedSteps c rootDirectory ++
             [Call.removeAll (c.cloneDirectoryPath rootDirectory ++ "/.git/")])
        else (none, tr ++ pinnedSteps c rootDirectory)) := by
  have hb : (c.Commit == "") = false := by simpa using hcommit
  unfold CloneConfig.Clone
  simp only [pinnedSteps, hb, List.take_succ_cons, List.take_zero, List.append_assoc,
    List.singleton_append, List.cons_append, List.nil_append]
  generalize c.cloneDirectoryPath rootDirectory = d
  refine ⟨?_, ?_, ?_, ?_, ?_⟩
  · intro e h1
    simp [h1]
  · intro e h1 h2
    simp [h1, h2]
  · intro e h1 h2 h3
    simp [h1, h2, h3]
  · intro e h1 h2 h3 h4
    simp [h1, h2, h3, h4]
  · intro h1 h2 h3 h4
    cases hs : c.Shallow
    · simp [h1, h2, h3, h4]
    · cases h5 : w.respond
        (tr ++ [Call.plainClone d c.GitURL, Call.head d, Call.worktree d,
          Call.checkout d c.Commit])
        (Call.removeAll (d ++ "/.git/")) <;> simp [h1, h2, h3, h4, h5]

/-- C5: with an empty commit and a successful clone, `Clone` makes no head,
    worktree or checkout call; with `shallow` it removes "<destination>/.git/"
    and returns the result of that removal, without `shallow` it makes no
    further call and returns nil. -/
theorem Clone_empty_commit (c : CloneConfig) (w : World) (rootDirectory : String)
    (tr : List Call) (hcommit : c.Commit = "")
    (hclone : w.respond tr (Call.plainClone (c.cloneDirectoryPath rootDirectory) c.GitURL) = none) :
    c.Clone w rootDirectory tr =
      if c.Shallow then
        (w.respond (tr ++ [Call.plainClone (c.cloneDirectoryPath rootDirectory) c.GitURL])
            (Call.removeAll (c.cloneDirectoryPath rootDirectory ++ "/.git/")),
         tr ++ [Call.plainClone (c.cloneDirectoryPath rootDirectory) c.GitURL,
                Call.removeAll (c.cloneDirectoryPath rootDirectory ++ "/.git/")])
      else (none, tr ++ [Call.plainClone (c.cloneDirectoryPath rootDirectory) c.GitURL]) := by
  unfold CloneConfig.Clone
  simp only [hclone, hcommit]
  cases hs : c.Shallow
  · simp
  · simp
    split <;> simp_all

/-- C10: the first call of `Clone` is the clone of `git_url` into
    `clone_directory` when the root is empty and into root, "/",
    `clone_directory` otherwise; no other clone is made and every removal is
    that of ".git/" under this destination. -/
theorem Clone_destination (c : CloneConfig) (w : World) (rootDirectory : String)
    (tr : List Call) :
    ∃ rest,
      (c.Clone w rootDirectory tr).2 =
        tr ++ Call.plainClone
          (if rootDirectory = "" then c.CloneDirectory
           else rootDirectory ++ "/" ++ c.CloneDirectory) c.GitURL :: rest ∧
      (∀ x ∈ rest, x.isPlainClone = false) ∧
      (∀ p, Call.removeAll p ∈ rest →
        p = (if rootDirectory = "" then c.CloneDirectory
             else rootDirectory ++ "/" ++ c.CloneDirectory) ++ "/.git/") := by
  have hd : c.cloneDirectoryPath rootDirectory =
      (if rootDirectory = "" then c.CloneDirectory
       else rootDirectory ++ "/" ++ c.CloneDirectory) := by
    unfold CloneConfig.cloneDirectoryPath
    by_cases h : rootDirectory = "" <;> simp [h]
  obtain ⟨rest, h1, h2⟩ := Clone_trace c w rootDirectory tr
  rw [hd] at h1 h2
  refine ⟨rest, h1, ?_, ?_⟩
  · intro x hx
    rcases h2 x hx with h | h | h | h <;> simp [h, Call.isPlainClone]
  · intro p hp
    rcases h2 _ hp with h | h | h | h <;> simp_all

/-- Concrete check of C4 with `shallow` set: a checkout that fails is returned
    with no removal, and a removal that fails after a successful checkout is
    returned after the five calls. -/
theorem Clone_pinned_commit_witness :
    (⟨"b", "u", "abc", true⟩ : CloneConfig).Commit ≠ "" ∧
    lostCommitWorld.respond
      [Call.plainClone "repos/b" "u", Call.head "repos/b", Call.worktree "repos/b"]
      (Call.checkout "repos/b" "abc") = some "object not found" ∧
    (⟨"b", "u", "abc", true⟩ : CloneConfig).Clone lostCommitWorld "repos" []
      = (some "object not found",
         [Call.plainClone "repos/b" "u", Call.head "repos/b", Call.worktree "repos/b",
          Call.checkout "repos/b" "abc"]) ∧
    (⟨"b", "u", "abc", true⟩ : CloneConfig).Clone stickyWorld "repos" []
      = (some "directory not empty",
         [Call.plainClone "repos/b" "u", Call.head "repos/b", Call.worktree "repos/b",
          Call.checkout "repos/b" "abc", Call.removeAll "repos/b/.git/"]) :=
  ⟨by decide, by decide,
   ((Clone_pinned_commit ⟨"b", "u", "abc", true⟩ lostCommitWorld "repos" [] (by decide)).2.2.2.1
      "object not found" (by decide) (by decide) (by decide) (by decide)).trans (by decide),
   ((Clone_pinned_commit ⟨"b", "u", "abc", true⟩ stickyWorld "repos" [] (by decide)).2.2.2.2
      (by decide) (by decide) (by decide) (by decide)).trans (by decide)⟩

/-- Concrete check of C5: an empty commit with `shallow` set. -/
theorem Clone_empty_commit_witness :
    (⟨"a", "u", "", true⟩ : CloneConfig).Clone calmWorld "repos" [] =
      (none, [Call.plainClone "repos/a" "u", Call.removeAll "repos/a/.git/"]) :=
  (Clone_empty_commit ⟨"a", "u", "", true⟩ calmWorld "repos" [] rfl rfl).trans (by decide)


/-! ## Properties of the clone loop -/

theorem cloneAll_eq (w : World) (rootDirectory : String) (repos : List CloneConfig)
    (errs : List String) (tr : List Call) :
    cloneAll w rootDirectory repos errs tr =
      (errs ++ (cloneResults w rootDirectory repos tr).reduceOption,
       cloneTrace w rootDirectory repos tr) := by
  induction repos generalizing errs tr with
  | nil => simp [cloneAll, cloneResults, cloneTrace]
  | cons c rest ih =>
    simp only [cloneAll, cloneResults, cloneTrace]
    split
    · rename_i e he
      rw [ih, he]
      simp [List.reduceOption_cons_of_some]
    · rename_i he
      rw [ih, he]
      simp [List.reduceOption_cons_of_none]

theorem cloneResults_length (w : World) (rootDirectory : String) (repos : List CloneConfig)
    (tr : List Call) : (cloneResults w rootDirectory repos tr).length = repos.length := by
  induction repos generalizing tr with
  | nil => simp [cloneResults]
  | cons c rest ih => simp [cloneResults, ih]

theorem cloneTrace_calls (w : World) (rootDirectory : String) (repos : List CloneConfig)
    (tr : List Call) :
    ∃ ext, cloneTrace w rootDirectory repos tr = tr ++ ext ∧
      ext.filter Call.isPlainClone =
        repos.map (fun c => Call.plainClone (c.cloneDirectoryPath rootDirectory) c.GitURL) ∧
      ∀ x ∈ ext, x.isCloneCall = true := by
  induction repos generalizing tr with
  | nil => exact ⟨[], by simp [cloneTrace]⟩
  | cons c rest ih =>
    obtain ⟨r1, h1, h2⟩ := Clone_trace c w rootDirectory tr
    obtain ⟨ext, e1, e2, e3⟩ := ih (c.Clone w rootDirectory tr).2
    refine ⟨Call.plainClone (c.cloneDirectoryPath rootDirectory) c.GitURL :: r1 ++ ext, ?_, ?_, ?_⟩
    · rw [cloneTrace, e1, h1]; simp
    · have hr1 : r1.filter Call.isPlainClone = [] := by
        rw [List.filter_eq_nil_iff]
        intro x hx
        rcases h2 x hx with h | h | h | h <;> simp [h, Call.isPlainClone]
      simp [List.filter_cons, Call.isPlainClone, hr1, e2]
    · intro x hx
      simp only [List.cons_append, List.mem_cons, List.mem_append] at hx
      rcases hx with h | h | h
      · simp [h, Call.isCloneCall]
      · rcases h2 x h with h | h | h | h <;> simp [h, Call.isCloneCall]
      · exact e3 x h

/-! ## Properties of the walk -/

theorem WalkExtends.refl (t : List Call) : WalkExtends t t := ⟨[], by simp⟩

theorem WalkExtends.trans {a b c : List Call} (h1 : WalkExtends a b) (h2 : WalkExtends b c) :
    WalkExtends a c := by
  obtain ⟨e1, rfl, p1⟩ := h1
  obtain ⟨e2, rfl, p2⟩ := h2
  refine ⟨e1 ++ e2, by simp, ?_⟩
  intro x hx
  rcases List.mem_append.mp hx with h | h
  · exact p1 x h
  · exact p2 x h

theorem WalkExtends.snoc (t : List Call) (c : Call) (hc : c.isWalkCall = true) :
    WalkExtends t (t ++ [c]) := ⟨[c], rfl, by simpa using hc⟩

theorem WalkExtends.append (t ext : List Call) (h : ∀ x ∈ ext, x.isWalkCall = true) :
    WalkExtends t (t ++ ext) := ⟨ext, rfl, h⟩

theorem walker_extends (w : World) (path : String) (info : Option FsNode)
    (err : Option String) (st : ZipState) :
    WalkExtends st.trace (walker w path info err st).2.trace := by
  cases err with
  | some e => exact WalkExtends.refl _
  | none =>
    cases info with
    | none => exact WalkExtends.refl _
    | some n =>
      cases n with
      | dir _ _ => exact WalkExtends.refl _
      | file name content =>
        cases h1 : w.respond st.trace (Call.osOpen path) <;>
        cases h2 : w.respond (st.trace ++ [Call.osOpen path]) (Call.zipCreate path) <;>
        cases h3 : w.respond (st.trace ++ [Call.osOpen path, Call.zipCreate path])
          (Call.ioCopy path) <;>
        simp only [walker, h1, h2, h3, List.append_assoc, List.singleton_append,
          List.cons_append, List.nil_append] <;>
        exact WalkExtends.append _ _ (by simp [Call.isWalkCall])

mutual
theorem walk_extends (w : World) (path : String) :
    ∀ (n : FsNode) (st : ZipState), WalkExtends st.trace (walk w path n st).2.trace
  | .file n content, st => by
    rw [walk]
    exact walker_extends _ _ _ _ _
  | .dir n children, st => by
    rw [walk]
    have h1 := walker_extends w path (some (.dir n children))
      (w.respond st.trace (Call.readDir path))
      { st with trace := st.trace ++ [Call.readDir path] }
    have h0 : WalkExtends st.trace (st.trace ++ [Call.readDir path]) :=
      WalkExtends.snoc _ _ rfl
    split_ifs
    · exact h0.trans h1
    · exact (h0.trans h1).trans (walkNames_extends w path children _)
theorem walkNames_extends (w : World) (path : String) :
    ∀ (l : List FsNode) (st : ZipState), WalkExtends st.trace (walkNames w path l st).2.trace
  | [], st => by
    rw [walkNames]
    exact WalkExtends.refl _
  | child :: rest, st => by
    rw [walkNames]
    have h0 : WalkExtends st.trace (st.trace ++ [Call.lstat (w.join path child.name)]) :=
      WalkExtends.snoc _ _ rfl
    cases h : w.respond st.trace (Call.lstat (w.join path child.name)) with
    | some e =>
      have h1 := walker_extends w (w.join path child.name) none (some e)
        { st with trace := st.trace ++ [Call.lstat (w.join path child.name)] }
      simp only []
      split_ifs
      · exact h0.trans h1
      · exact (h0.trans h1).trans (walkNames_extends w path rest _)
    | none =>
      have h1 := walk_extends w (w.join path child.name) child
        { st with trace := st.trace ++ [Call.lstat (w.join path child.name)] }
      simp only []
      split_ifs
      · exact h0.trans h1
      · exact (h0.trans h1).trans (walkNames_extends w path rest _)
end

theorem zipDirectory_calls (w : World) (fs : FsNode) (directory zipFilename : String)
    (tr : List Call) :
    ∃ ext, (zipDirectory w fs directory zipFilename tr).2.1
        = tr ++ Call.osCreate zipFilename :: ext ∧
      ∀ x ∈ ext, x.isWalkCall = true := by
  have key : ∀ t, WalkExtends (tr ++ [Call.osCreate zipFilename]) t →
      ∃ ext, t = tr ++ Call.osCreate zipFilename :: ext ∧ ∀ x ∈ ext, x.isWalkCall = true := by
    rintro t ⟨ext, rfl, h⟩
    exact ⟨ext, by simp, h⟩
  unfold zipDirectory
  cases h : w.respond tr (Call.osCreate zipFilename) with
  | some e => exact ⟨[], by simp⟩
  | none =>
    apply key
    simp only [Walk]
    have h1 : WalkExtends (tr ++ [Call.osCreate zipFilename])
        (tr ++ [Call.osCreate zipFilename] ++ [Call.lstat directory]) :=
      WalkExtends.snoc _ _ rfl
    cases h2 : w.respond (tr ++ [Call.osCreate zipFilename]) (Call.lstat directory) with
    | some e => exact h1.trans (walker_extends _ _ _ _ _)
    | none => exact h1.trans (walk_extends _ _ _ _)

theorem isZipCall_of_isWalkCall {x : Call} (h : x.isWalkCall = true) : x.isZipCall = true := by
  cases x <;> simp_all [Call.isWalkCall, Call.isZipCall]

theorem ZipExtends.self (t : List Call) : ZipExtends t t := ⟨[], by simp⟩

theorem zipDirectory_extends (w : World) (fs : FsNode) (directory zipFilename : String)
    (tr : List Call) : ZipExtends tr (zipDirectory w fs directory zipFilename tr).2.1 := by
  obtain ⟨ext, h1, h2⟩ := zipDirectory_calls w fs directory zipFilename tr
  refine ⟨Call.osCreate zipFilename :: ext, h1, ?_⟩
  intro x hx
  rcases List.mem_cons.mp hx with h | h
  · simp [h, Call.isZipCall]
  · exact isZipCall_of_isWalkCall (h2 x h)

/-! ## Properties of `main` -/

theorem isZipCall_of_isCloneCall {x : Call} (h : x.isCloneCall = true) : x.isZipCall = false := by
  cases x <;> simp_all [Call.isCloneCall, Call.isZipCall]

theorem isPlainClone_of_isZipCall {x : Call} (h : x.isZipCall = true) :
    x.isPlainClone = false := by
  cases x <;> simp_all [Call.isPlainClone, Call.isZipCall]

theorem reduceOption_eq_nil_iff (l : List (Option String)) :
    l.reduceOption = [] ↔ ∀ e, some e ∉ l := by
  rw [List.eq_nil_iff_forall_not_mem]
  constructor
  · intro h e he
    exact h e (List.reduceOption_mem_iff.mpr he)
  · intro h e he
    exact h e (List.reduceOption_mem_iff.mp he)

/-- The run of `main` behind the root check, by the way it ends. -/
theorem main_of_relative_root (w : World) (fs : FsNode) (cfg : PackConfig)
    (hroot : HasPrefix cfg.RootCloneDirectory "/" = false) :
    main w fs (.ok cfg) =
      if (cloneResults w cfg.RootCloneDirectory cfg.Repos []).reduceOption ≠ [] then
        { exit := .cloneErrors (cloneResults w cfg.RootCloneDirectory cfg.Repos []).reduceOption,
          trace := cloneTrace w cfg.RootCloneDirectory cfg.Repos [], archive := none }
      else if cfg.Archive = false then
        { exit := .noArchive, trace := cloneTrace w cfg.RootCloneDirectory cfg.Repos [],
          archive := none }
      else if cfg.ArchiveFilename = "" then
        { exit := .missingArchiveFilename,
          trace := cloneTrace w cfg.RootCloneDirectory cfg.Repos [], archive := none }
      else
        { exit := .zipped (archiveFilename cfg.ArchiveFilename)
            (zipDirectory w fs cfg.RootCloneDirectory (archiveFilename cfg.ArchiveFilename)
              (cloneTrace w cfg.RootCloneDirectory cfg.Repos [])).1,
          trace := (zipDirectory w fs cfg.RootCloneDirectory
            (archiveFilename cfg.ArchiveFilename)
            (cloneTrace w cfg.RootCloneDirectory cfg.Repos [])).2.1,
          archive := (zipDirectory w fs cfg.RootCloneDirectory
            (archiveFilename cfg.ArchiveFilename)
            (cloneTrace w cfg.RootCloneDirectory cfg.Repos [])).2.2.map
              (fun entries => (archiveFilename cfg.ArchiveFilename, entries)) } := by
  unfold main
  simp only [hroot, cloneAll_eq, List.nil_append, Bool.false_eq_true, if_false]
  by_cases h1 : (cloneResults w cfg.RootCloneDirectory cfg.Repos []).reduceOption = []
  · simp only [h1, List.length_nil, gt_iff_lt, lt_self_iff_false, if_false, ne_eq,
      not_true_eq_false]
    cases h2 : cfg.Archive
    · simp
    · by_cases h3 : cfg.ArchiveFilename = "" <;> simp [h3]
  · have : 0 < (cloneResults w cfg.RootCloneDirectory cfg.Repos []).reduceOption.length :=
      List.length_pos.mpr h1
    simp [h1, this]

theorem main_trace_of_relative_root (w : World) (fs : FsNode) (cfg : PackConfig)
    (hroot : HasPrefix cfg.RootCloneDirectory "/" = false) :
    ZipExtends (cloneTrace w cfg.RootCloneDirectory cfg.Repos []) (main w fs (.ok cfg)).trace := by
  rw [main_of_relative_root w fs cfg hroot]
  split_ifs
  · exact ZipExtends.self _
  · exact ZipExtends.self _
  · exact ZipExtends.self _
  · exact zipDirectory_extends _ _ _ _ _

/-- C1: behind the root check, `main` runs `Clone` once for every entry of
    `repos`, in order and with the root clone directory: the clone calls of the
    run are those of the entries in order, the run begins with the calls of the
    successive `Clone`s, there is one result per entry whatever the earlier
    results were, and the error list is the list of the non-nil results. -/
theorem main_clones_every_repo (w : World) (fs : FsNode) (cfg : PackConfig)
    (hroot : HasPrefix cfg.RootCloneDirectory "/" = false) :
    (main w fs (.ok cfg)).trace.filter Call.isPlainClone =
      cfg.Repos.map
        (fun c => Call.plainClone (c.cloneDirectoryPath cfg.RootCloneDirectory) c.GitURL) ∧
    cloneTrace w cfg.RootCloneDirectory cfg.Repos [] <+: (main w fs (.ok cfg)).trace ∧
    (cloneResults w cfg.RootCloneDirectory cfg.Repos []).length = cfg.Repos.length ∧
    cloneAll w cfg.RootCloneDirectory cfg.Repos [] [] =
      ((cloneResults w cfg.RootCloneDirectory cfg.Repos []).reduceOption,
       cloneTrace w cfg.RootCloneDirectory cfg.Repos []) ∧
    ((cloneResults w cfg.RootCloneDirectory cfg.Repos []).reduceOption ≠ [] →
      (main w fs (.ok cfg)).exit =
        .cloneErrors (cloneResults w cfg.RootCloneDirectory cfg.Repos []).reduceOption) := by
  obtain ⟨zext, hz, hzc⟩ := main_trace_of_relative_root w fs cfg hroot
  obtain ⟨cext, hc, hcf, _⟩ := cloneTrace_calls w cfg.RootCloneDirectory cfg.Repos []
  refine ⟨?_, ⟨zext, hz.symm⟩, cloneResults_length _ _ _ _, ?_, ?_⟩
  · have hzf : zext.filter Call.isPlainClone = [] := by
      rw [List.filter_eq_nil_iff]
      intro x hx
      simp [isPlainClone_of_isZipCall (hzc x hx)]
    rw [hz, hc, List.nil_append, List.filter_append, hzf, hcf, List.append_nil]
  · simpa using cloneAll_eq w cfg.RootCloneDirectory cfg.Repos [] []
  · intro h
    rw [main_of_relative_root w fs cfg hroot, if_pos h]

/-- Concrete check of C1: the second of three clones fails, the third is
    still made and the error list holds the one failure. -/
theorem main_clones_every_repo_witness :
    HasPrefix sampleConfig.RootCloneDirectory "/" = false ∧
    (main badUrlWorld sampleTree (.ok sampleConfig)).trace.filter Call.isPlainClone =
      [Call.plainClone "repos/a" "u1", Call.plainClone "repos/b" "bad",
       Call.plainClone "repos/c" "u3"] ∧
    (main badUrlWorld sampleTree (.ok sampleConfig)).exit =
      .cloneErrors ["repository not found"] :=
  ⟨by decide,
   (main_clones_every_repo badUrlWorld sampleTree sampleConfig (by decide)).1.trans (by decide),
   by decide⟩

/-- C2: when some `Clone` of the loop returns an error, the run of `main`
    makes no call of `zipDirectory` and leaves no archive, whatever `archive`
    and `archive_filename` are. -/
theorem main_no_archive_after_clone_error (w : World) (fs : FsNode) (cfg : PackConfig)
    (herr : ∃ e, some e ∈ cloneResults w cfg.RootCloneDirectory cfg.Repos []) :
    (main w fs (.ok cfg)).archive = none ∧
    ∀ x ∈ (main w fs (.ok cfg)).trace, x.isZipCall = false := by
  cases hroot : HasPrefix cfg.RootCloneDirectory "/"
  · have hne : (cloneResults w cfg.RootCloneDirectory cfg.Repos []).reduceOption ≠ [] := by
      rw [ne_eq, reduceOption_eq_nil_iff]
      obtain ⟨e, he⟩ := herr
      exact fun h => h e he
    rw [main_of_relative_root w fs cfg hroot, if_pos hne]
    refine ⟨rfl, ?_⟩
    obtain ⟨cext, hc, _, hcc⟩ := cloneTrace_calls w cfg.RootCloneDirectory cfg.Repos []
    intro x hx
    simp only [hc, List.nil_append] at hx
    exact isZipCall_of_isCloneCall (hcc x hx)
  · simp [main, hroot]

/-- Concrete check of C2: a failed clone with archiving enabled. -/
theorem main_no_archive_after_clone_error_witness :
    (∃ e, some e ∈ cloneResults badUrlWorld sampleConfig.RootCloneDirectory
      sampleConfig.Repos []) ∧
    (main badUrlWorld sampleTree (.ok sampleConfig)).archive = none :=
  ⟨⟨"repository not found", by decide⟩,
   (main_no_archive_after_clone_error badUrlWorld sampleTree sampleConfig
     ⟨"repository not found", by decide⟩).1⟩

/-- C3: with a root clone directory that begins with "/", `main` stops at the
    root check: it makes no external call at all (no clone, no removal, no
    call of `zipDirectory`) and leaves no archive. -/
theorem main_absolute_root (w : World) (fs : FsNode) (cfg : PackConfig)
    (hroot : HasPrefix cfg.RootCloneDirectory "/" = true) :
    (main w fs (.ok cfg)).exit = .absoluteRoot ∧
    (main w fs (.ok cfg)).trace = [] ∧
    (main w fs (.ok cfg)).archive = none := by
  simp [main, hroot]

/-- Concrete check of C3: the root "/tmp/repos". -/
theorem main_absolute_root_witness :
    HasPrefix "/tmp/repos" "/" = true ∧
    (main calmWorld sampleTree
      (.ok { sampleConfig with RootCloneDirectory := "/tmp/repos" })).trace = [] :=
  ⟨by decide,
   (main_absolute_root calmWorld sampleTree
     { sampleConfig with RootCloneDirectory := "/tmp/repos" } (by decide)).2.1⟩

/-! ## The archive file name -/

theorem HasSuffix_append (s suffix : String) : HasSuffix (s ++ suffix) suffix = true := by
  unfold HasSuffix
  simp [String.data_append]

theorem archiveFilename_eq (name : String) :
    archiveFilename name = if HasSuffix name ".zip" then name else name ++ ".zip" := by
  unfold archiveFilename ZipFileSuffix
  cases h : HasSuffix name ".zip" <;> simp

theorem HasSuffix_archiveFilename (name : String) :
    HasSuffix (archiveFilename name) ".zip" = true := by
  rw [archiveFilename_eq]
  cases h : HasSuffix name ".zip"
  · simpa using HasSuffix_append name ".zip"
  · simpa using h

/-- C8: when `main` reaches `zipDirectory` with a non-empty `archive_filename`,
    the name it passes is `archive_filename` itself if that ends with ".zip"
    and `archive_filename` followed by one ".zip" otherwise; the name ends
    with ".zip" and normalising it again leaves it unchanged. -/
theorem main_archive_name (w : World) (fs : FsNode) (cfg : PackConfig)
    (hroot : HasPrefix cfg.RootCloneDirectory "/" = false)
    (hclones : ∀ r ∈ cloneResults w cfg.RootCloneDirectory cfg.Repos [], r = none)
    (harchive : cfg.Archive = true) (hname : cfg.ArchiveFilename ≠ "") :
    (∃ r, (main w fs (.ok cfg)).exit =
      .zipped (if HasSuffix cfg.ArchiveFilename ".zip" then cfg.ArchiveFilename
               else cfg.ArchiveFilename ++ ".zip") r) ∧
    (∃ ext, (main w fs (.ok cfg)).trace =
      cloneTrace w cfg.RootCloneDirectory cfg.Repos [] ++
        Call.osCreate (if HasSuffix cfg.ArchiveFilename ".zip" then cfg.ArchiveFilename
                       else cfg.ArchiveFilename ++ ".zip") :: ext ∧
      ∀ x ∈ ext, x.isWalkCall = true) ∧
    HasSuffix (archiveFilename cfg.ArchiveFilename) ".zip" = true ∧
    archiveFilename (archiveFilename cfg.ArchiveFilename) =
      archiveFilename cfg.ArchiveFilename := by
  have h1 : ¬ (cloneResults w cfg.RootCloneDirectory cfg.Repos []).reduceOption ≠ [] := by
    rw [ne_eq, not_not, reduceOption_eq_nil_iff]
    intro e he
    simpa using hclones _ he
  refine ⟨?_, ?_, HasSuffix_archiveFilename _, ?_⟩
  · rw [main_of_relative_root w fs cfg hroot, if_neg h1, if_neg (by simp [harchive]),
      if_neg hname, archiveFilename_eq]
    exact ⟨_, rfl⟩
  · rw [main_of_relative_root w fs cfg hroot, if_neg h1, if_neg (by simp [harchive]),
      if_neg hname, archiveFilename_eq]
    exact zipDirectory_calls _ _ _ _ _
  · rw [archiveFilename_eq (archiveFilename _), HasSuffix_archiveFilename]
    simp

/-- Concrete check of C8: the name "out" becomes "out.zip". -/
theorem main_archive_name_witness :
    HasPrefix sampleConfig.RootCloneDirectory "/" = false ∧
    (∀ r ∈ cloneResults calmWorld sampleConfig.RootCloneDirectory sampleConfig.Repos [],
      r = none) ∧
    sampleConfig.Archive = true ∧ sampleConfig.ArchiveFilename ≠ "" ∧
    ∃ r, (main calmWorld sampleTree (.ok sampleConfig)).exit = .zipped "out.zip" r :=
  ⟨by decide, by decide, by decide, by decide,
   (main_archive_name calmWorld sampleTree sampleConfig (by decide) (by decide) (by decide)
     (by decide)).1⟩

/-! ## The missing archive file name -/

/-- C9, as stated, fails: with archiving enabled, an empty `archive_filename`
    and a clone that fails, `main` stops after printing the clone errors and
    does not report the missing file name. -/
theorem main_missing_name_unreported :
    namelessConfig.Archive = true ∧ namelessConfig.ArchiveFilename = "" ∧
    (main badUrlWorld sampleTree (.ok namelessConfig)).exit =
      .cloneErrors ["repository not found"] ∧
    (main badUrlWorld sampleTree (.ok namelessConfig)).exit ≠ .missingArchiveFilename := by
  decide

/-- C9, amended: with archiving enabled and an empty `archive_filename`,
    `main` never calls `zipDirectory` and leaves no archive; it reports the
    missing file name exactly when the root does not begin with "/" and every
    clone succeeded. -/
theorem main_missing_archive_name (w : World) (fs : FsNode) (cfg : PackConfig)
    (harchive : cfg.Archive = true) (hname : cfg.ArchiveFilename = "") :
    (main w fs (.ok cfg)).archive = none ∧
    (∀ x ∈ (main w fs (.ok cfg)).trace, x.isZipCall = false) ∧
    ((main w fs (.ok cfg)).exit = .missingArchiveFilename ↔
      HasPrefix cfg.RootCloneDirectory "/" = false ∧
      ∀ r ∈ cloneResults w cfg.RootCloneDirectory cfg.Repos [], r = none) := by
  have hnone : (∀ r ∈ cloneResults w cfg.RootCloneDirectory cfg.Repos [], r = none) ↔
      (cloneResults w cfg.RootCloneDirectory cfg.Repos []).reduceOption = [] := by
    rw [reduceOption_eq_nil_iff]
    constructor
    · intro h e he
      simpa using h _ he
    · intro h r hr
      cases r with
      | none => rfl
      | some e => exact absurd hr (h e)
  have hclone : ∀ x ∈ cloneTrace w cfg.RootCloneDirectory cfg.Repos [],
      x.isZipCall = false := by
    obtain ⟨cext, hc, _, hcc⟩ := cloneTrace_calls w cfg.RootCloneDirectory cfg.Repos []
    intro x hx
    simp only [hc, List.nil_append] at hx
    exact isZipCall_of_isCloneCall (hcc x hx)
  cases hroot : HasPrefix cfg.RootCloneDirectory "/"
  · rw [main_of_relative_root w fs cfg hroot, hnone]
    by_cases h1 : (cloneResults w cfg.RootCloneDirectory cfg.Repos []).reduceOption = []
    · rw [if_neg (by simpa using h1), if_neg (by simp [harchive]), if_pos hname]
      exact ⟨rfl, hclone, by simp [h1]⟩
    · rw [if_pos h1]
      exact ⟨rfl, hclone, by simp [h1]⟩
  · simp [main, hroot]

/-- Concrete check of C9 as amended: every clone succeeds and the missing
    file name is reported. -/
theorem main_missing_archive_name_witness :
    namelessConfig.Archive = true ∧ namelessConfig.ArchiveFilename = "" ∧
    (main calmWorld sampleTree (.ok namelessConfig)).exit = .missingArchiveFilename ∧
    (main calmWorld sampleTree (.ok namelessConfig)).archive = none :=
  ⟨by decide, by decide,
   (main_missing_archive_name calmWorld sampleTree namelessConfig (by decide) (by decide)).2.2.mpr
     ⟨by decide, by decide⟩,
   (main_missing_archive_name calmWorld sampleTree namelessConfig (by decide) (by decide)).1⟩

/-! ## The archive written by `zipDirectory` -/

theorem walker_file_ok (w : World) (hok : ∀ h c, c.isZipCall = true → w.respond h c = none)
    (path name : String) (content : List UInt8) (st : ZipState) :
    walker w path (some (.file name content)) none st =
      (.nil, { trace := st.trace ++ [Call.osOpen path] ++ [Call.zipCreate path] ++
                 [Call.ioCopy path],
               entries := st.entries ++ [(path, content)] }) := by
  simp [walker, hok _ (Call.osOpen path) rfl, hok _ (Call.zipCreate path) rfl,
    hok _ (Call.ioCopy path) rfl]

mutual
theorem walk_all_ok (w : World) (hok : ∀ h c, c.isZipCall = true → w.respond h c = none)
    (path : String) :
    ∀ (n : FsNode) (st : ZipState), (walk w path n st).1 = .nil ∧
      (walk w path n st).2.entries = st.entries ++ regularFiles w.join path n
  | .file n content, st => by
    rw [walk, walker_file_ok w hok, regularFiles]
    exact ⟨rfl, rfl⟩
  | .dir n children, st => by
    have h := walkNames_all_ok w hok path children
      { st with trace := st.trace ++ [Call.readDir path] }
    rw [walk, regularFiles]
    simpa [hok _ (Call.readDir path) rfl, walker] using h
theorem walkNames_all_ok (w : World)
    (hok : ∀ h c, c.isZipCall = true → w.respond h c = none) (path : String) :
    ∀ (l : List FsNode) (st : ZipState), (walkNames w path l st).1 = .nil ∧
      (walkNames w path l st).2.entries = st.entries ++ regularFilesIn w.join path l
  | [], st => by
    rw [walkNames, regularFilesIn]
    simp
  | child :: rest, st => by
    have h1 := walk_all_ok w hok (w.join path child.name) child
      { st with trace := st.trace ++ [Call.lstat (w.join path child.name)] }
    have h2 := walkNames_all_ok w hok path rest
      (walk w (w.join path child.name) child
        { st with trace := st.trace ++ [Call.lstat (w.join path child.name)] }).2
    rw [walkNames, regularFilesIn]
    simp only [hok _ (Call.lstat (w.join path child.name)) rfl, h1.1, bne_self_eq_false,
      Bool.false_eq_true, if_false]
    rw [h2.1, h2.2, h1.2]
    simp
end

/-- C6: when every call of `zipDirectory` succeeds, it returns nil and the
    archive holds exactly the regular files of the tree, one entry each in
    walk order, named by the walk path from the given root and holding the
    bytes of the file; directories give no entry. -/
theorem zipDirectory_archives_regular_files (w : World) (fs : FsNode)
    (directory zipFilename : String) (tr : List Call)
    (hok : ∀ h c, c.isZipCall = true → w.respond h c = none) :
    (zipDirectory w fs directory zipFilename tr).1 = .nil ∧
    (zipDirectory w fs directory zipFilename tr).2.2 =
      some (regularFiles w.join directory fs) := by
  have h := walk_all_ok w hok directory fs
    { trace := tr ++ [Call.osCreate zipFilename] ++ [Call.lstat directory], entries := [] }
  simp only [zipDirectory, Walk, hok _ (Call.osCreate zipFilename) rfl,
    hok _ (Call.lstat directory) rfl]
  exact ⟨h.1, by simpa using h.2⟩

/-- Concrete check of C6: two files and two directories. -/
theorem zipDirectory_archives_regular_files_witness :
    (∀ h c, c.isZipCall = true → calmWorld.respond h c = none) ∧
    (zipDirectory calmWorld sampleTree "repos" "out.zip" []).2.2 =
      some [("repos/a/x", [1, 2]), ("repos/y", [3])] :=
  ⟨fun _ _ _ => rfl,
   (zipDirectory_archives_regular_files calmWorld sampleTree "repos" "out.zip" []
     (fun _ _ _ => rfl)).2.trans (by decide)⟩

/-! ## Failures of `zipDirectory` -/

/-- C7 fails where the output file cannot be created: `zipDirectory` panics
    with the error of `os.Create` instead of returning it, and `main` ends in
    that panic instead of reporting the error. -/
theorem zipDirectory_create_failure_panics :
    zipDirectory readOnlyWorld sampleTree "repos" "out.zip" [] =
      (.panic "permission denied", [Call.osCreate "out.zip"], none) ∧
    (main readOnlyWorld sampleTree
      (.ok { sampleConfig with Repos := [] })).exit =
        .zipped "out.zip" (.panic "permission denied") := by
  decide

theorem StopsAtFailure.after (w : World) (r : Outcome) :
    ∀ (e1 t e2 : List Call), StopsAtFailure w t e1 .nil →
      StopsAtFailure w (t ++ e1) e2 r → StopsAtFailure w t (e1 ++ e2) r
  | [], t, e2, _, h2 => by simpa using h2
  | c :: rest, t, e2, h1, h2 => by
    rw [List.cons_append, StopsAtFailure]
    rw [StopsAtFailure] at h1
    cases h : w.respond t c with
    | none =>
      simp only [h] at h1 ⊢
      apply StopsAtFailure.after w r rest (t ++ [c]) e2 h1
      simpa using h2
    | some e => simp [h] at h1

theorem StopsAtFailure.failed (w : World) (t : List Call) (c : Call) (e : String)
    (h : w.respond t c = some e) : StopsAtFailure w t [c] (.err e) := by
  simp [StopsAtFailure, h]

theorem StopsAtFailure.succeeded (w : World) (t : List Call) (c : Call)
    (h : w.respond t c = none) : StopsAtFailure w t [c] .nil := by
  simp [StopsAtFailure, h]

theorem walker_stops_at_failure (w : World) (path : String) (n : FsNode) (st : ZipState) :
    ∃ ext, (walker w path (some n) none st).2.trace = st.trace ++ ext ∧
      StopsAtFailure w st.trace ext (walker w path (some n) none st).1 := by
  cases n with
  | dir _ _ => exact ⟨[], by simp [walker, StopsAtFailure]⟩
  | file name content =>
    cases h1 : w.respond st.trace (Call.osOpen path) with
    | some e => exact ⟨[Call.osOpen path], by simp [walker, h1, StopsAtFailure]⟩
    | none =>
      cases h2 : w.respond (st.trace ++ [Call.osOpen path]) (Call.zipCreate path) with
      | some e =>
        exact ⟨[Call.osOpen path, Call.zipCreate path],
          by simp [walker, h1, h2, StopsAtFailure]⟩
      | none =>
        cases h3 : w.respond (st.trace ++ [Call.osOpen path, Call.zipCreate path])
            (Call.ioCopy path) with
        | some e =>
          exact ⟨[Call.osOpen path, Call.zipCreate path, Call.ioCopy path],
            by simp [walker, h1, h2, h3, StopsAtFailure]⟩
        | none =>
          exact ⟨[Call.osOpen path, Call.zipCreate path, Call.ioCopy path],
            by simp [walker, h1, h2, h3, StopsAtFailure]⟩

mutual
theorem walk_stops_at_failure (w : World) (path : String) :
    ∀ (n : FsNode) (st : ZipState),
      ∃ ext, (walk w path n st).2.trace = st.trace ++ ext ∧
        StopsAtFailure w st.trace ext (walk w path n st).1
  | .file n content, st => by
    rw [walk]
    exact walker_stops_at_failure _ _ _ _
  | .dir n children, st => by
    rw [walk]
    cases h : w.respond st.trace (Call.readDir path) with
    | some e =>
      exact ⟨[Call.readDir path], by simp [walker], by
        simpa [walker] using StopsAtFailure.failed w _ _ e h⟩
    | none =>
      obtain ⟨ext, h1, h2⟩ := walkNames_stops_at_failure w path children
        { st with trace := st.trace ++ [Call.readDir path] }
      refine ⟨[Call.readDir path] ++ ext, ?_, ?_⟩
      · simpa [walker] using h1
      · have := StopsAtFailure.after w _ _ _ _ (StopsAtFailure.succeeded w _ _ h) h2
        simpa [walker] using this
theorem walkNames_stops_at_failure (w : World) (path : String) :
    ∀ (l : List FsNode) (st : ZipState),
      ∃ ext, (walkNames w path l st).2.trace = st.trace ++ ext ∧
        StopsAtFailure w st.trace ext (walkNames w path l st).1
  | [], st => by
    rw [walkNames]
    exact ⟨[], by simp [StopsAtFailure]⟩
  | child :: rest, st => by
    rw [walkNames]
    cases h : w.respond st.trace (Call.lstat (w.join path child.name)) with
    | some e =>
      exact ⟨[Call.lstat (w.join path child.name)], by simp [walker], by
        simpa [walker] using StopsAtFailure.failed w _ _ e h⟩
    | none =>
      obtain ⟨e1, h1, h2⟩ := walk_stops_at_failure w (w.join path child.name) child
        { st with trace := st.trace ++ [Call.lstat (w.join path child.name)] }
      have h3 := StopsAtFailure.after w _ _ _ _ (StopsAtFailure.succeeded w _ _ h) h2
      simp only []
      split_ifs with hr
      · exact ⟨[Call.lstat (w.join path child.name)] ++ e1, by simpa using h1, h3⟩
      · have hnil : (walk w (w.join path child.name) child
            { st with trace := st.trace ++ [Call.lstat (w.join path child.name)] }).1
              = Outcome.nil := by simpa using hr
        obtain ⟨e2, h4, h5⟩ := walkNames_stops_at_failure w path rest
          (walk w (w.join path child.name) child
            { st with trace := st.trace ++ [Call.lstat (w.join path child.name)] }).2
        rw [hnil] at h3
        rw [h1] at h4 h5
        refine ⟨([Call.lstat (w.join path child.name)] ++ e1) ++ e2, by simpa using h4, ?_⟩
        apply StopsAtFailure.after w _ _ _ _ h3
        simpa using h5
end

/-- When the output file can be created, `zipDirectory` does not panic: it
    makes its calls until the first one fails, stops there and returns the
    error of that call; it returns nil when no call fails. -/
theorem zipDirectory_stops_at_failure (w : World) (fs : FsNode)
    (directory zipFilename : String) (tr : List Call)
    (hcreate : w.respond tr (Call.osCreate zipFilename) = none) :
    ∃ ext, (zipDirectory w fs directory zipFilename tr).2.1 = tr ++ ext ∧
      StopsAtFailure w tr ext (zipDirectory w fs directory zipFilename tr).1 := by
  simp only [zipDirectory, hcreate, Walk]
  cases h : w.respond (tr ++ [Call.osCreate zipFilename]) (Call.lstat directory) with
  | some e =>
    refine ⟨[Call.osCreate zipFilename] ++ [Call.lstat directory], by simp [walker], ?_⟩
    have := StopsAtFailure.after w _ _ _ _ (StopsAtFailure.succeeded w _ _ hcreate)
      (StopsAtFailure.failed w _ _ e h)
    simpa [walker] using this
  | none =>
    obtain ⟨e1, h1, h2⟩ := walk_stops_at_failure w directory fs
      { trace := tr ++ [Call.osCreate zipFilename] ++ [Call.lstat directory], entries := [] }
    have h3 := StopsAtFailure.after w _ _ _ _ (StopsAtFailure.succeeded w _ _ h) h2
    have h4 := StopsAtFailure.after w _ _ _ _ (StopsAtFailure.succeeded w _ _ hcreate) h3
    exact ⟨[Call.osCreate zipFilename] ++ ([Call.lstat directory] ++ e1),
      by simpa using h1, h4⟩

/-- A copy that fails after one byte: the error is returned, the walk stops,
    the entry of the failing file is left incomplete and the file after it is
    not added. -/
theorem zipDirectory_copy_failure :
    zipDirectory shortWriteWorld sampleTree "repos" "out.zip" [] =
      (.err "no space left on device",
       [Call.osCreate "out.zip", Call.lstat "repos", Call.readDir "repos",
        Call.lstat "repos/a", Call.readDir "repos/a", Call.lstat "repos/a/x",
        Call.osOpen "repos/a/x", Call.zipCreate "repos/a/x", Call.ioCopy "repos/a/x"],
       some [("repos/a/x", [1])]) := by
  decide

end GitPacker
